import Mathlib

/-!
Verification of the Scratch top-projects crawler (`topscratchprojects.py`).

The development shallowly embeds the program's data model and operations:

* `fetch` — the per-ID fetch, modelled as a pure function of the project id
  and a simulated transport outcome (`none` models a raised exception or
  timeout, `HttpResponse` carries the status code and the parsed JSON body).
* `pySort` — Python's stable `list.sort(key=..., reverse=True)`, embedded as
  `List.insertionSort` over the descending key order (insertion sort is
  stable, like Timsort).
* `rank` — the sort-and-truncate step of `crawl_projects`
  (`results.sort(key=lambda x: x['Views'], reverse=True)` then `[:TOP_N]`).
* `run_chunks` — the chunk ranges generated by
  `for start in range(start_id, end_id + 1, CHUNK_SIZE)`.
* `merge_chunks` — the merger over persisted chunk rows, whose sort key is
  `int(x['Views'])` applied to the persisted string field.
* `mainRun` — the observable effects of the `__main__` dispatch.
* `SemStep`/`SemReach` — an interleaving semantics for the admission
  semaphore (`asyncio.Semaphore(125)`) guarding every fetch.
-/

namespace TopScratch

/-- Maximum number of IDs per chunk (`CHUNK_SIZE = 100000` in the source). -/
def CHUNK_SIZE : Nat := 100000

/-- Maximum number of rows retained at every ranking stage
(`TOP_N = 1000000` in the source). -/
def TOP_N : Nat := 1000000

/-- Capacity of the admission semaphore (`asyncio.Semaphore(125)`). -/
def semaphoreCapacity : Nat := 125

/-- A record produced by a successful fetch: the dict
`{'ID': project_id, 'Title': ..., 'Creator': ..., 'Views': ...}` built in
`fetch`.  `Views` comes from `data['stats']['views']`, a view count, hence a
natural number. -/
structure Record where
  ID : Int
  Title : String
  Creator : String
  Views : Nat
deriving DecidableEq, Repr

/-- The JSON fields of the Scratch API response that `fetch` reads.  Each
field is optional: a missing field models the `KeyError` the corresponding
subscript would raise.  `echoed_id` is the id the payload itself carries;
the program never reads it, and it is kept here precisely to state that the
produced record's `ID` does not come from it. -/
structure Payload where
  echoed_id : Option Int
  title : Option String
  author_username : Option String
  stats_views : Option Nat
deriving DecidableEq, Repr

/-- A simulated HTTP response: the status code and the parsed JSON body
(`none` models `response.json()` raising). -/
structure HttpResponse where
  status : Nat
  payload : Option Payload
deriving DecidableEq, Repr

/-- Embedding of `fetch(session, project_id)`.  The second argument is the
simulated outcome of `session.get`: `none` models the request raising
(connection error, timeout, ...).  The body mirrors the source: status is
compared against 200, the fields `title`, `author.username` and
`stats.views` are extracted (a missing one raises `KeyError`, swallowed by
the bare `except`), and every failure path falls through to `return None`. -/
def fetch (project_id : Int) (resp : Option HttpResponse) : Option Record :=
  match resp with
  | none => none
  | some r =>
    if r.status = 200 then
      match r.payload with
      | none => none
      | some p =>
        match p.title, p.author_username, p.stats_views with
        | some t, some u, some v =>
          some { ID := project_id, Title := t, Creator := u, Views := v }
        | _, _, _ => none
    else none

/-- Claim C1: for every id, `fetch` returns `Absent` (`none`) whenever the
request raises an exception, the HTTP status is not 2xx, or the payload is
missing a required field; `fetch` never raises (it is a total function into
`Option Record`, the `none` branch covering every failure). -/
theorem fetch_absent_on_failure (project_id : Int) (resp : Option HttpResponse)
    (h : resp = none ∨
      ∃ r, resp = some r ∧
        (¬ (200 ≤ r.status ∧ r.status ≤ 299) ∨ r.payload = none ∨
          ∃ p, r.payload = some p ∧
            (p.title = none ∨ p.author_username = none ∨ p.stats_views = none))) :
    fetch project_id resp = none := by
  rcases h with rfl | ⟨r, rfl, hr⟩
  · rfl
  · rcases hr with hst | hpl | ⟨p, hpl, hf⟩
    · have : ¬ r.status = 200 := fun h200 => hst (by omega)
      simp [fetch, this]
    · simp [fetch, hpl]
    · rcases hf with ht | hu | hv
      · simp only [fetch, hpl, ht]
        split <;> simp
      · simp only [fetch, hpl, hu]
        split
        · cases p.title <;> simp
        · rfl
      · simp only [fetch, hpl, hv]
        split
        · cases p.title <;> cases p.author_username <;> simp
        · rfl
/-- Witness for C1: a 404 response yields `Absent`. -/
theorem fetch_absent_on_failure_witness :
    fetch 104 (some { status := 404, payload := none }) = none :=
  fetch_absent_on_failure 104 (some { status := 404, payload := none })
    (Or.inr ⟨{ status := 404, payload := none }, rfl, Or.inl (by decide)⟩)

/-- Claim C8: on a successful well-formed payload, the produced record maps
`title`, `author.username` and `stats.views` to `Title`, `Creator` and
`Views`, and its `ID` is the requested `project_id` — independent of any id
the payload itself echoes. -/
theorem fetch_success_maps_payload (project_id : Int) (echoed : Option Int)
    (t u : String) (v : Nat) :
    fetch project_id
        (some { status := 200,
                payload := some { echoed_id := echoed, title := some t,
                                  author_username := some u,
                                  stats_views := some v } }) =
      some { ID := project_id, Title := t, Creator := u, Views := v } := rfl

/-! ### Stable descending sort, shared by the per-chunk ranker and the merger

Python's `list.sort(key=k, reverse=True)` is a stable sort placing larger
keys first.  `List.insertionSort` over `keyDesc k` is such a stable sort:
`orderedInsert` places each element (processed from the head, i.e. in
original order) before the first already-placed element with a key `≤` its
own, so original order is kept among equal keys. -/

section Ranking

variable {α : Type} (k : α → Nat)

/-- The comparison used by `sort(key=k, reverse=True)`: `a` may come before
`b` exactly when `k b ≤ k a`. -/
def keyDesc (a b : α) : Prop := k b ≤ k a

instance : DecidableRel (keyDesc k) := fun a b =>
  inferInstanceAs (Decidable (k b ≤ k a))

instance : IsTotal α (keyDesc k) := ⟨fun a b => le_total (k b) (k a)⟩

instance : IsTrans α (keyDesc k) := ⟨fun _ _ _ hab hbc => le_trans hbc hab⟩

/-- Embedding of Python's stable `list.sort(key=k, reverse=True)`. -/
def pySort (l : List α) : List α := List.insertionSort (keyDesc k) l

/-- The elements of `l` whose sort key is exactly `v`, in list order. -/
def bkt (v : Nat) (l : List α) : List α := l.filter (fun a => decide (k a = v))

/-- The number of elements of `l` whose sort key exceeds `v`. -/
def countGT (v : Nat) (l : List α) : Nat :=
  (l.filter (fun a => decide (v < k a))).length

theorem bkt_nil (v : Nat) : bkt k v [] = [] := rfl

theorem bkt_cons (v : Nat) (a : α) (l : List α) :
    bkt k v (a :: l) = if k a = v then a :: bkt k v l else bkt k v l := by
  by_cases h : k a = v <;> simp [bkt, List.filter_cons, h]

theorem bkt_append (v : Nat) (l₁ l₂ : List α) :
    bkt k v (l₁ ++ l₂) = bkt k v l₁ ++ bkt k v l₂ := by
  simp [bkt, List.filter_append]

theorem countGT_cons (v : Nat) (a : α) (l : List α) :
    countGT k v (a :: l) = (if v < k a then 1 else 0) + countGT k v l := by
  by_cases h : v < k a <;> simp [countGT, List.filter_cons, h, Nat.add_comm]

theorem bkt_eq_nil_of_lt (v : Nat) {l : List α} (h : ∀ b ∈ l, k b < v) :
    bkt k v l = [] := by
  induction l with
  | nil => rfl
  | cons a l ih =>
    have ha := h a (List.mem_cons_self a l)
    rw [bkt_cons, if_neg (by omega)]
    exact ih fun b hb => h b (List.mem_cons_of_mem a hb)

theorem countGT_eq_zero (v : Nat) {l : List α} (h : ∀ b ∈ l, k b ≤ v) :
    countGT k v l = 0 := by
  simp only [countGT, List.length_eq_zero]
  exact List.filter_eq_nil_iff.mpr fun a ha => by
    simpa using Nat.not_lt.mpr (h a ha)

/-- Stability of `orderedInsert`: inserting `a` never changes the relative
order inside a key class, and `a` lands at the front of its own class. -/
theorem bkt_orderedInsert (v : Nat) (a : α) (l : List α) :
    bkt k v (List.orderedInsert (keyDesc k) a l) =
      if k a = v then a :: bkt k v l else bkt k v l := by
  induction l with
  | nil => by_cases h : k a = v <;> simp [bkt, h]
  | cons b l ih =>
    by_cases hab : keyDesc k a b
    · rw [List.orderedInsert, if_pos hab, bkt_cons]
    · rw [List.orderedInsert, if_neg hab, bkt_cons, ih, bkt_cons]
      have hlt : k a < k b := Nat.lt_of_not_le hab
      by_cases hbv : k b = v
      · have hav : ¬ k a = v := by omega
        simp [hbv, hav]
      · simp [hbv]

/-- Stability of the whole sort: each key class of `pySort k l` is the key
class of `l`, in the original order. -/
theorem bkt_pySort (v : Nat) (l : List α) :
    bkt k v (pySort k l) = bkt k v l := by
  induction l with
  | nil => rfl
  | cons a l ih =>
    show bkt k v (List.orderedInsert (keyDesc k) a (pySort k l)) = _
    rw [bkt_orderedInsert, ih, bkt_cons]

theorem countGT_pySort (v : Nat) (l : List α) :
    countGT k v (pySort k l) = countGT k v l :=
  ((List.perm_insertionSort (keyDesc k) l).filter _).length_eq

theorem sorted_pySort (l : List α) : List.Sorted (keyDesc k) (pySort k l) :=
  List.sorted_insertionSort (keyDesc k) l

theorem length_pySort (l : List α) : (pySort k l).length = l.length :=
  List.length_insertionSort (keyDesc k) l

theorem sorted_take {r : α → α → Prop} {l : List α} (h : List.Sorted r l)
    (n : Nat) : List.Sorted r (l.take n) :=
  List.Pairwise.sublist (List.take_sublist n l) h

/-- A sorted list is determined by its key classes: stable sorting is
unique. -/
theorem sorted_eq_of_bkt_eq :
    ∀ {l₁ l₂ : List α}, List.Sorted (keyDesc k) l₁ →
      List.Sorted (keyDesc k) l₂ → (∀ v, bkt k v l₁ = bkt k v l₂) →
      l₁ = l₂ := by
  intro l₁
  induction l₁ with
  | nil =>
    intro l₂ _ _ hb
    cases l₂ with
    | nil => rfl
    | cons b t₂ =>
      have hcontra := hb (k b)
      rw [bkt_nil, bkt_cons, if_pos rfl] at hcontra
      exact absurd hcontra (by simp)
  | cons a t₁ ih =>
    intro l₂ h₁ h₂ hb
    cases l₂ with
    | nil =>
      have hcontra := hb (k a)
      rw [bkt_nil, bkt_cons, if_pos rfl] at hcontra
      exact absurd hcontra (by simp)
    | cons b t₂ =>
      have h₁c := List.sorted_cons.mp h₁
      have h₂c := List.sorted_cons.mp h₂
      have hkey : k a = k b := by
        rcases Nat.lt_trichotomy (k a) (k b) with hlt | heq | hgt
        · exfalso
          have hl : bkt k (k b) (a :: t₁) = [] := by
            rw [bkt_cons, if_neg (by omega)]
            exact bkt_eq_nil_of_lt k _ fun c hc => by
              have : k c ≤ k a := h₁c.1 c hc
              omega
          have hr := hb (k b)
          rw [hl, bkt_cons, if_pos rfl] at hr
          exact absurd hr.symm (by simp)
        · exact heq
        · exfalso
          have hr : bkt k (k a) (b :: t₂) = [] := by
            rw [bkt_cons, if_neg (by omega)]
            exact bkt_eq_nil_of_lt k _ fun c hc => by
              have : k c ≤ k b := h₂c.1 c hc
              omega
          have hl := hb (k a)
          rw [hr, bkt_cons, if_pos rfl] at hl
          exact absurd hl (by simp)
      have hhead := hb (k a)
      rw [bkt_cons, if_pos rfl, bkt_cons, if_pos hkey.symm] at hhead
      have hab : a = b := (List.cons.injEq _ _ _ _ ▸ hhead).1
      have htail : ∀ v, bkt k v t₁ = bkt k v t₂ := by
        intro v
        by_cases hv : v = k a
        · subst hv
          exact (List.cons.injEq _ _ _ _ ▸ hhead).2
        · have := hb v
          rwa [bkt_cons, if_neg (fun h => hv h.symm), bkt_cons,
            if_neg (fun h => hv (hkey.symm ▸ h).symm)] at this
      exact hab ▸ congrArg (a :: ·) (ih h₁c.2 h₂c.2 htail)

/-- In a descending-sorted list, truncation keeps, inside the key class of
`v`, exactly the first `n - countGT v` elements: everything with a larger
key precedes the class. -/
theorem bkt_take_sorted (v : Nat) :
    ∀ {s : List α}, List.Sorted (keyDesc k) s → ∀ n,
      bkt k v (s.take n) = (bkt k v s).take (n - countGT k v s) := by
  intro s
  induction s with
  | nil => intro _ n; simp [bkt]
  | cons a t ih =>
    intro hs n
    have hc := List.sorted_cons.mp hs
    cases n with
    | zero => simp [bkt, countGT]
    | succ m =>
      rw [List.take_succ_cons, bkt_cons, bkt_cons, countGT_cons]
      rcases Nat.lt_trichotomy v (k a) with hgt | heq | hlt
      · have hav : ¬ k a = v := by omega
        rw [if_neg hav, if_neg hav, if_pos hgt, ih hc.2 m]
        congr 1
        omega
      · have hav : k a = v := by omega
        have hzero : countGT k v t = 0 :=
          countGT_eq_zero k v fun b hb => by
            have := hc.1 b hb
            simp only [keyDesc] at this
            omega
        rw [if_pos hav, if_pos hav, if_neg (by omega), hzero, Nat.sub_zero,
          List.take_succ_cons, ih hc.2 m, hzero, Nat.sub_zero]
      · have hav : ¬ k a = v := by omega
        have hbt : bkt k v t = [] :=
          bkt_eq_nil_of_lt k v fun b hb => by
            have := hc.1 b hb
            simp only [keyDesc] at this
            omega
        have hbtm : bkt k v (t.take m) = [] :=
          List.eq_nil_of_sublist_nil
            (hbt ▸ List.Sublist.filter _ (List.take_sublist m t))
        rw [if_neg hav, if_neg hav, hbtm, hbt, List.take_nil]

/-- In a descending-sorted list, truncation to `n` keeps `min n` of the
elements with key above `v`: they all sit at the front. -/
theorem countGT_take_sorted (v : Nat) :
    ∀ {s : List α}, List.Sorted (keyDesc k) s → ∀ n,
      countGT k v (s.take n) = min n (countGT k v s) := by
  intro s
  induction s with
  | nil => intro _ n; simp [countGT]
  | cons a t ih =>
    intro hs n
    have hc := List.sorted_cons.mp hs
    cases n with
    | zero => simp [countGT]
    | succ m =>
      rw [List.take_succ_cons, countGT_cons, countGT_cons]
      by_cases hgt : v < k a
      · rw [if_pos hgt, ih hc.2 m]
        omega
      · have hz : countGT k v t = 0 :=
          countGT_eq_zero k v fun b hb => by
            have := hc.1 b hb
            simp only [keyDesc] at this
            omega
        have hzm : countGT k v (t.take m) = 0 := by
          have hsub : (t.take m).filter (fun a => decide (v < k a)) = [] :=
            List.eq_nil_of_sublist_nil
              ((by simpa [countGT, List.length_eq_zero] using hz :
                  t.filter (fun a => decide (v < k a)) = []) ▸
                List.Sublist.filter _ (List.take_sublist m t))
          simp [countGT, hsub]
        rw [if_neg hgt, hz, hzm]
        simp

/-- Key classes of the truncated sort `(pySort k l).take n`, phrased over
the unsorted input. -/
theorem bkt_rankAux (v : Nat) (l : List α) (n : Nat) :
    bkt k v ((pySort k l).take n) = (bkt k v l).take (n - countGT k v l) := by
  rw [bkt_take_sorted k v (sorted_pySort k l) n, bkt_pySort, countGT_pySort]

/-- Above-`v` counts of the truncated sort `(pySort k l).take n`, phrased
over the unsorted input. -/
theorem countGT_rankAux (v : Nat) (l : List α) (n : Nat) :
    countGT k v ((pySort k l).take n) = min n (countGT k v l) := by
  rw [countGT_take_sorted k v (sorted_pySort k l) n, countGT_pySort]

theorem bkt_flatten (v : Nat) (ls : List (List α)) :
    bkt k v ls.flatten = (ls.map (bkt k v)).flatten := by
  induction ls with
  | nil => rfl
  | cons l ls ih => rw [List.flatten_cons, bkt_append, ih, List.map_cons,
      List.flatten_cons]

theorem countGT_flatten (v : Nat) (ls : List (List α)) :
    countGT k v ls.flatten = (ls.map (countGT k v)).sum := by
  induction ls with
  | nil => rfl
  | cons l ls ih =>
    rw [List.flatten_cons, List.map_cons, List.sum_cons, ← ih]
    simp [countGT, List.filter_append]

/-- Truncating each piece to at least `M` elements before flattening does
not change the first `M` elements of the flattened list. -/
theorem take_flatten_take :
    ∀ (ps : List (List α × Nat)) (M : Nat), (∀ p ∈ ps, M ≤ p.2) →
      ((ps.map (fun p => p.1.take p.2)).flatten).take M =
        ((ps.map Prod.fst).flatten).take M := by
  intro ps
  induction ps with
  | nil => intro M _; rfl
  | cons p ps ih =>
    intro M hM
    obtain ⟨f, t⟩ := p
    have hMt : M ≤ t := hM _ (List.mem_cons_self _ _)
    rw [List.map_cons, List.map_cons, List.flatten_cons, List.flatten_cons,
      List.take_append_eq_append_take, List.take_append_eq_append_take]
    have hhead : (f.take t).take M = f.take M := by
      rw [List.take_take, Nat.min_eq_left hMt]
    rw [hhead]
    congr 1
    by_cases hf : f.length ≤ t
    · rw [List.length_take, Nat.min_eq_right hf]
      exact ih (M - f.length) fun q hq =>
        Nat.le_trans (Nat.sub_le M f.length) (hM q (List.mem_cons_of_mem _ hq))
    · have hft : t < f.length := Nat.lt_of_not_le hf
      rw [List.length_take, Nat.min_eq_left (Nat.le_of_lt hft)]
      rw [Nat.sub_eq_zero_of_le hMt,
        Nat.sub_eq_zero_of_le (Nat.le_of_lt (Nat.lt_of_le_of_lt hMt hft))]
      rfl

/-- Capping each summand at `N` does not change the truncated difference
`N - sum`. -/
theorem sub_sum_min (N : Nat) (xs : List Nat) :
    N - (xs.map (fun x => min N x)).sum = N - xs.sum := by
  by_cases h : ∀ x ∈ xs, x < N
  · have : xs.map (fun x => min N x) = xs.map id :=
      List.map_congr_left fun x hx => Nat.min_eq_right (Nat.le_of_lt (h x hx))
    rw [this, List.map_id]
  · push_neg at h
    obtain ⟨x, hx, hNx⟩ := h
    have h1 : N ≤ (xs.map (fun x => min N x)).sum := by
      have : min N x ∈ xs.map (fun x => min N x) := List.mem_map_of_mem _ hx
      have := List.single_le_sum (fun _ _ => Nat.zero_le _) _ this
      omega
    have h2 : N ≤ xs.sum := by
      have := List.single_le_sum (fun (y : Nat) _ => Nat.zero_le y) x hx
      omega
    omega

end Ranking

/-! ### The ranker of `crawl_projects` and the two-stage reduce -/

/-- Embedding of the rank step of `crawl_projects`:
`results.sort(key=lambda x: x['Views'], reverse=True)` followed by
`results[:TOP_N]`, with the truncation bound as a parameter (`TOP_N` in the
source). -/
def rank (records : List Record) (limit : Nat) : List Record :=
  (pySort Record.Views records).take limit

/-- Claim C5: `rank records limit` has length `min (len records) limit`, is
sorted by `Views` descending, and `rank` is idempotent. -/
theorem rank_spec (records : List Record) (limit : Nat) :
    (rank records limit).length = min records.length limit ∧
    List.Sorted (keyDesc Record.Views) (rank records limit) ∧
    rank (rank records limit) limit = rank records limit := by
  refine ⟨?_, ?_, ?_⟩
  · rw [rank, List.length_take, length_pySort, Nat.min_comm]
  · exact sorted_take (sorted_pySort _ records) limit
  · have hsorted : List.Sorted (keyDesc Record.Views) (rank records limit) :=
      sorted_take (sorted_pySort _ records) limit
    rw [rank, pySort, hsorted.insertionSort_eq, rank, List.take_take,
      Nat.min_self]

/-- The chunked pipeline's reduce: rank each chunk to the top `limit`
records, then rank the concatenation of the chunk leaderboards to the top
`limit` (what `run_chunks` followed by `merge_chunks` computes, with the
CSV round-trip — which preserves every field — elided). -/
def twoStage (chunks : List (List Record)) (limit : Nat) : List Record :=
  rank ((chunks.map (fun c => rank c limit)).flatten) limit

/-- Claim C6: for every partition of the records into chunks, the two-stage
reduce equals the single global rank of all records, and its length is
capped at `limit`. -/
theorem twoStage_eq_rank (chunks : List (List Record)) (limit : Nat) :
    twoStage chunks limit = rank chunks.flatten limit ∧
    (twoStage chunks limit).length ≤ limit := by
  constructor
  · apply sorted_eq_of_bkt_eq Record.Views
    · exact sorted_take (sorted_pySort _ _) limit
    · exact sorted_take (sorted_pySort _ _) limit
    · intro v
      set k := Record.Views
      rw [twoStage, rank, rank, bkt_rankAux, bkt_rankAux]
      rw [bkt_flatten, countGT_flatten, List.map_map, List.map_map]
      have hbktmap :
          (chunks.map (bkt k v ∘ fun c => rank c limit)) =
            chunks.map (fun c => (bkt k v c).take (limit - countGT k v c)) :=
        List.map_congr_left fun c _ => by
          simp only [Function.comp, rank, bkt_rankAux]
      have hcntmap :
          (chunks.map (countGT k v ∘ fun c => rank c limit)) =
            (chunks.map (countGT k v)).map (fun x => min limit x) :=
        by
          rw [List.map_map]
          exact List.map_congr_left fun c _ => by
            simp only [Function.comp, rank, countGT_rankAux]
      rw [hbktmap, hcntmap, sub_sum_min]
      have hps :
          chunks.map (fun c => (bkt k v c).take (limit - countGT k v c)) =
            (chunks.map (fun c => (bkt k v c, limit - countGT k v c))).map
              (fun p => p.1.take p.2) := by
        rw [List.map_map]
        rfl
      have hfst :
          chunks.map (bkt k v) =
            (chunks.map (fun c => (bkt k v c, limit - countGT k v c))).map
              Prod.fst := by
        rw [List.map_map]
        rfl
      rw [hps, bkt_flatten, countGT_flatten, hfst]
      apply take_flatten_take
      intro p hp
      obtain ⟨c, hc, rfl⟩ := List.mem_map.mp hp
      have hle : countGT k v c ≤ (chunks.map (countGT k v)).sum :=
        List.single_le_sum (fun _ _ => Nat.zero_le _) _
          (List.mem_map_of_mem _ hc)
      exact Nat.sub_le_sub_left hle limit
  · rw [twoStage, rank, List.length_take]
    exact Nat.min_le_left _ _

/-! ### The merger over persisted chunk artifacts -/

/-- A row as `csv.DictReader` rehydrates it from a chunk artifact: every
field, including `Views`, is a string. -/
structure Row where
  ID : String
  Title : String
  Creator : String
  Views : String
deriving DecidableEq, Repr

/-- Models Python's `int(s)` on the canonical non-negative decimal strings
the crawler writes into artifacts (the digits of a view count). -/
def pyInt (s : String) : Nat :=
  s.data.foldl (fun n c => n * 10 + (c.toNat - 48)) 0

/-- The merger's sort key: `int(x['Views'])`. -/
def rowViews (row : Row) : Nat := pyInt row.Views

/-- Embedding of `merge_chunks`: the artifacts, in the enumeration order of
the directory listing, are concatenated and re-ranked by
`int(x['Views'])` descending, truncated (to `TOP_N` in the source). -/
def merge_chunks (artifacts : List (List Row)) (limit : Nat) : List Row :=
  (pySort rowViews artifacts.flatten).take limit

theorem bkt_length_le_one (k : Row → Nat) (v : Nat) :
    ∀ {l : List Row}, l.Pairwise (fun a b => k a ≠ k b) →
      (bkt k v l).length ≤ 1 := by
  intro l
  induction l with
  | nil => intro _; simp [bkt]
  | cons a t ih =>
    intro hp
    have hc := List.pairwise_cons.mp hp
    rw [bkt_cons]
    by_cases hav : k a = v
    · rw [if_pos hav]
      have : bkt k v t = [] :=
        List.filter_eq_nil_iff.mpr fun b hb => by
          have hne := hc.1 b hb
          simp only [decide_eq_true_eq]
          exact fun hbv => hne (hav.trans hbv.symm)
      simp [this]
    · rw [if_neg hav]
      exact ih hc.2

theorem perm_eq_of_length_le_one {l₁ l₂ : List Row} (h : l₁.Perm l₂)
    (hlen : l₁.length ≤ 1) : l₁ = l₂ := by
  cases l₁ with
  | nil => exact (h.nil_eq).symm ▸ rfl
  | cons a t =>
    cases t with
    | nil => exact (List.perm_singleton.mp h.symm).symm
    | cons b u => simp at hlen

/-- Claim C7 (amended): the merger is enumeration-order-insensitive
whenever no two records across the artifacts tie on parsed `Views`; and on
any list of artifacts — in particular fewer than the number of chunks
expected — it totals and produces the ranked leaderboard of whatever is
present (sorted by parsed `Views` descending, of length
`min (number of present records) limit`). -/
theorem merge_chunks_props :
    (∀ (arts1 arts2 : List (List Row)) (limit : Nat), arts1.Perm arts2 →
      arts1.flatten.Pairwise (fun a b => rowViews a ≠ rowViews b) →
      merge_chunks arts1 limit = merge_chunks arts2 limit) ∧
    (∀ (arts : List (List Row)) (limit : Nat),
      List.Sorted (keyDesc rowViews) (merge_chunks arts limit) ∧
      (merge_chunks arts limit).length = min arts.flatten.length limit) := by
  constructor
  · intro arts1 arts2 limit hperm hdist
    have hjoin : arts1.flatten.Perm arts2.flatten := hperm.flatten
    have hdist2 : arts2.flatten.Pairwise (fun a b => rowViews a ≠ rowViews b) :=
      (hjoin.pairwise_iff fun h => Ne.symm h).mp hdist
    have hsort : pySort rowViews arts1.flatten = pySort rowViews arts2.flatten := by
      apply sorted_eq_of_bkt_eq rowViews (sorted_pySort _ _) (sorted_pySort _ _)
      intro v
      rw [bkt_pySort, bkt_pySort]
      exact perm_eq_of_length_le_one (hjoin.filter _)
        (bkt_length_le_one rowViews v hdist)
    rw [merge_chunks, merge_chunks, hsort]
  · intro arts limit
    exact ⟨sorted_take (sorted_pySort _ _) limit,
      by rw [merge_chunks, List.length_take, length_pySort, Nat.min_comm]⟩

/-- Witness for C7: two single-row artifacts with distinct view counts merge
to the same leaderboard in either enumeration order. -/
theorem merge_chunks_props_witness :
    merge_chunks [[{ ID := "1", Title := "A", Creator := "a", Views := "7" }],
        [{ ID := "2", Title := "B", Creator := "b", Views := "5" }]] 2 =
      merge_chunks [[{ ID := "2", Title := "B", Creator := "b", Views := "5" }],
        [{ ID := "1", Title := "A", Creator := "a", Views := "7" }]] 2 :=
  merge_chunks_props.1 _ _ 2
    (List.Perm.swap _ _ _) (by decide)

/-- Counterexample to C7 as stated: with a tie on `Views` the stable merge
sort preserves enumeration order, so two enumeration orders of the same
artifacts give different leaderboards. -/
theorem merge_chunks_order_sensitive :
    ¬ (merge_chunks [[{ ID := "1", Title := "A", Creator := "a", Views := "5" }],
          [{ ID := "2", Title := "B", Creator := "b", Views := "5" }]] 1 =
       merge_chunks [[{ ID := "2", Title := "B", Creator := "b", Views := "5" }],
          [{ ID := "1", Title := "A", Creator := "a", Views := "5" }]] 1) := by
  decide

/-- Claim C10: the merger orders rehydrated rows by the integer value of
their persisted `Views` string — and therefore numerically, never
lexicographically: `"10"` outranks `"9"` even though `"9" > "10"` as
strings. -/
theorem merge_chunks_numeric_order (artifacts : List (List Row)) (limit : Nat) :
    List.Sorted (keyDesc rowViews) (merge_chunks artifacts limit) ∧
    merge_chunks [[{ ID := "9", Title := "A", Creator := "a", Views := "9" },
        { ID := "10", Title := "B", Creator := "b", Views := "10" }]] 2 =
      [{ ID := "10", Title := "B", Creator := "b", Views := "10" },
        { ID := "9", Title := "A", Creator := "a", Views := "9" }] :=
  ⟨sorted_take (sorted_pySort _ _) limit, by decide⟩

/-! ### The chunk partition of `run_chunks` -/

/-- Number of elements of Python's `range(a, b, c)` for a positive step
`c`: `⌈(b - a) / c⌉`, i.e. zero when `b ≤ a`. -/
def pythonRangeCount (a b : Int) (c : Nat) : Nat := ((b - a).toNat + c - 1) / c

/-- Python's `range(a, b, c)` for a positive step `c`:
`a, a + c, a + 2c, ...` while below `b`. -/
def pythonRange (a b : Int) (c : Nat) : List Int :=
  (List.range (pythonRangeCount a b c)).map
    (fun i : Nat => a + (i : Int) * (c : Int))

/-- The chunk ranges `(start, end)` generated by the loop of `run_chunks`:
`for start in range(start_id, end_id + 1, CHUNK_SIZE)` with
`end = min(start + CHUNK_SIZE - 1, end_id)`, the chunk size kept as a
parameter (`CHUNK_SIZE` in the source). -/
def run_chunks (start_id end_id : Int) (C : Nat) : List (Int × Int) :=
  (pythonRange start_id (end_id + 1) C).map
    (fun s => (s, min (s + (C : Int) - 1) end_id))

theorem run_chunks_length (S E : Int) (C : Nat) :
    (run_chunks S E C).length = ((E + 1 - S).toNat + C - 1) / C := by
  rw [run_chunks, List.length_map, pythonRange, List.length_map,
    List.length_range]
  rfl

theorem run_chunks_get (S E : Int) (C : Nat) (i : Nat)
    (h : i < (run_chunks S E C).length) :
    (run_chunks S E C).get ⟨i, h⟩ =
      (S + (i : Int) * (C : Int),
        min (S + (i : Int) * (C : Int) + (C : Int) - 1) E) := by
  have h2 : i < (((List.range (pythonRangeCount S (E + 1) C)).map
      (fun j : Nat => S + (j : Int) * (C : Int))).map
      (fun s => (s, min (s + (C : Int) - 1) E))).length := h
  have hrep : (run_chunks S E C).get ⟨i, h⟩ =
      (((List.range (pythonRangeCount S (E + 1) C)).map
        (fun j : Nat => S + (j : Int) * (C : Int))).map
        (fun s => (s, min (s + (C : Int) - 1) E))).get ⟨i, h2⟩ := rfl
  rw [hrep, List.get_eq_getElem, List.getElem_map, List.getElem_map,
    List.getElem_range]

/-- Arithmetic facts about the index bounds of the ceil-division chunk
count. -/
theorem chunk_bounds (len C : Nat) (hC : 0 < C) (_hlen : 0 < len) (i : Nat)
    (hi : i < (len + C - 1) / C) :
    i * C < len ∧ (i + 1 < (len + C - 1) / C → i * C + C < len) ∧
      len ≤ ((len + C - 1) / C) * C := by
  have hdm := Nat.div_add_mod (len + C - 1) C
  have hr : (len + C - 1) % C < C := Nat.mod_lt _ hC
  have hcomm : C * ((len + C - 1) / C) = ((len + C - 1) / C) * C :=
    Nat.mul_comm _ _
  have h1 : ((len + C - 1) / C) * C ≤ len + C - 1 := Nat.div_mul_le_self _ _
  have h3 : (i + 1) * C ≤ ((len + C - 1) / C) * C :=
    Nat.mul_le_mul_right C hi
  have h4 : (i + 1) * C = i * C + C := Nat.succ_mul i C
  refine ⟨by omega, fun hi2 => ?_, by omega⟩
  have h5 : (i + 2) * C ≤ ((len + C - 1) / C) * C :=
    Nat.mul_le_mul_right C hi2
  have h6 : (i + 2) * C = (i + 1) * C + C := Nat.succ_mul (i + 1) C
  omega

/-- Claim C4: for `S ≤ E` and chunk size `C > 0`, the partition generated
by `run_chunks` has exactly `⌈(E − S + 1) / C⌉` chunks; consecutive chunks
are contiguous and ascending; every id of `[S, E]` lies in exactly one
chunk (and ids outside in none), so the chunks are pairwise disjoint and
cover the range exactly once; and each chunk has length at most `C`, every
chunk but the last exactly `C`. -/
theorem run_chunks_partition (S E : Int) (C : Nat) (hSE : S ≤ E)
    (hC : 0 < C) :
    (run_chunks S E C).length = ((E + 1 - S).toNat + C - 1) / C ∧
    (∀ i (h1 : i < (run_chunks S E C).length)
        (h2 : i + 1 < (run_chunks S E C).length),
      ((run_chunks S E C).get ⟨i, h1⟩).2 + 1 =
        ((run_chunks S E C).get ⟨i + 1, h2⟩).1 ∧
      ((run_chunks S E C).get ⟨i, h1⟩).1 <
        ((run_chunks S E C).get ⟨i + 1, h2⟩).1) ∧
    (∀ id : Int, (S ≤ id ∧ id ≤ E) ↔
      ∃ i, ∃ h : i < (run_chunks S E C).length,
        ((run_chunks S E C).get ⟨i, h⟩).1 ≤ id ∧
          id ≤ ((run_chunks S E C).get ⟨i, h⟩).2) ∧
    (∀ (id : Int) i j (hi : i < (run_chunks S E C).length)
        (hj : j < (run_chunks S E C).length),
      ((run_chunks S E C).get ⟨i, hi⟩).1 ≤ id →
      id ≤ ((run_chunks S E C).get ⟨i, hi⟩).2 →
      ((run_chunks S E C).get ⟨j, hj⟩).1 ≤ id →
      id ≤ ((run_chunks S E C).get ⟨j, hj⟩).2 → i = j) ∧
    (∀ i (h : i < (run_chunks S E C).length),
      ((run_chunks S E C).get ⟨i, h⟩).1 ≤ ((run_chunks S E C).get ⟨i, h⟩).2 ∧
      (((run_chunks S E C).get ⟨i, h⟩).2 + 1 -
          ((run_chunks S E C).get ⟨i, h⟩).1).toNat ≤ C ∧
      (i + 1 < (run_chunks S E C).length →
        (((run_chunks S E C).get ⟨i, h⟩).2 + 1 -
            ((run_chunks S E C).get ⟨i, h⟩).1).toNat = C)) := by
  have hlenpos : (0 : Int) < E + 1 - S := by omega
  set len := (E + 1 - S).toNat with hlendef
  have hlen : (E + 1 - S) = (len : Int) := (Int.toNat_of_nonneg (by omega)).symm
  have hlenpos2 : 0 < len := by omega
  have hn : (run_chunks S E C).length = (len + C - 1) / C :=
    run_chunks_length S E C
  refine ⟨hn, ?_, ?_, ?_, ?_⟩
  · -- contiguity and ascent of consecutive chunks
    intro i h1 h2
    obtain ⟨_, hmid, _⟩ :=
      chunk_bounds len C hC hlenpos2 i (hn ▸ h1)
    have hmid2 : i * C + C < len := hmid (hn ▸ h2)
    rw [run_chunks_get S E C i h1, run_chunks_get S E C (i + 1) h2]
    have hc1 : ((i * C : Nat) : Int) = (i : Int) * (C : Int) := by
      push_cast; ring
    have hc2 : (((i + 1) * C : Nat) : Int) = ((i + 1 : Nat) : Int) * (C : Int) := by
      push_cast; ring
    have h4 : (i + 1) * C = i * C + C := Nat.succ_mul i C
    dsimp only
    rw [← hc1, ← hc2]
    constructor <;> omega
  · -- coverage
    intro id
    constructor
    · rintro ⟨hS, hE⟩
      have hd : (id - S) = (((id - S).toNat : Nat) : Int) :=
        (Int.toNat_of_nonneg (by omega)).symm
      set d := (id - S).toNat with hddef
      have hdlen : d < len := by omega
      refine ⟨d / C, ?_, ?_⟩
      · rw [hn]
        have hsplit : len + C - 1 = (len - 1) + C := by omega
        rw [hsplit, Nat.add_div_right _ hC]
        have : d / C ≤ (len - 1) / C :=
          Nat.div_le_div_right (by omega)
        omega
      · rw [run_chunks_get]
        have hc1 : ((d / C * C : Nat) : Int) = ((d / C : Nat) : Int) * (C : Int) := by
          push_cast; ring
        have hfloor : d / C * C ≤ d := Nat.div_mul_le_self d C
        have hdm := Nat.div_add_mod d C
        have hmod : d % C < C := Nat.mod_lt _ hC
        have hcomm : C * (d / C) = d / C * C := Nat.mul_comm _ _
        rw [← hc1]
        omega
    · rintro ⟨i, h, hfst, hsnd⟩
      rw [run_chunks_get] at hfst hsnd
      obtain ⟨hlt, _, _⟩ := chunk_bounds len C hC hlenpos2 i (hn ▸ h)
      have hc1 : ((i * C : Nat) : Int) = (i : Int) * (C : Int) := by
        push_cast; ring
      rw [← hc1] at hfst hsnd
      simp only at hfst hsnd
      omega
  · -- uniqueness: an id lies in at most one chunk
    intro id i j hi hj hif his hjf hjs
    rw [run_chunks_get] at hif his hjf hjs
    simp only at hif his hjf hjs
    have hci : ((i * C : Nat) : Int) = (i : Int) * (C : Int) := by
      push_cast; ring
    have hcj : ((j * C : Nat) : Int) = (j : Int) * (C : Int) := by
      push_cast; ring
    rw [← hci] at hif his
    rw [← hcj] at hjf hjs
    have hSid : S ≤ id := by
      have : (0 : Int) ≤ ((i * C : Nat) : Int) := Int.ofNat_nonneg _
      omega
    have hd : (id - S) = (((id - S).toNat : Nat) : Int) :=
      (Int.toNat_of_nonneg (by omega)).symm
    set d := (id - S).toNat with hddef
    have hi4 : (i + 1) * C = i * C + C := Nat.succ_mul i C
    have hj4 : (j + 1) * C = j * C + C := Nat.succ_mul j C
    have hdi : i * C ≤ d ∧ d < (i + 1) * C := by omega
    have hdj : j * C ≤ d ∧ d < (j + 1) * C := by omega
    have := Nat.div_eq_of_lt_le hdi.1 hdi.2
    have := Nat.div_eq_of_lt_le hdj.1 hdj.2
    omega
  · -- sizes: at most C, and exactly C except possibly for the last chunk
    intro i h
    obtain ⟨hlt, hmid, _⟩ := chunk_bounds len C hC hlenpos2 i (hn ▸ h)
    rw [run_chunks_get]
    have hc1 : ((i * C : Nat) : Int) = (i : Int) * (C : Int) := by
      push_cast; ring
    simp only [← hc1]
    refine ⟨by omega, by omega, fun h2 => ?_⟩
    have hmid2 : i * C + C < len := hmid (hn ▸ h2)
    omega

/-! ### The `__main__` dispatch -/

/-- The externally observable effects of one run of the `__main__` block:
whether the invalid-input message was printed (`except ValueError`),
whether the chunked `run_chunks` + `merge_chunks` path was taken, how many
ids are fetched, and whether the final output file gets written. -/
structure RunEffect where
  errorMsg : Bool
  usedChunkedPath : Bool
  fetchesIssued : Nat
  finalFileWritten : Bool
deriving DecidableEq, Repr

/-- Number of ids the crawl iterates: `range(start_id, end_id + 1)`. -/
def idCount (start_id end_id : Int) : Nat := (end_id + 1 - start_id).toNat

/-- Embedding of the `__main__` dispatch: `none` models inputs that fail
`int(...)` (the `ValueError` branch).  With parsed inputs, the source takes
the chunked path iff `end_id - start_id > CHUNK_SIZE`; both paths write the
final `top_scratch_projects.csv` (directly in `crawl_projects`, or via
`merge_chunks`), and the crawl fetches one id per element of
`range(start_id, end_id + 1)`. -/
def mainRun (input : Option (Int × Int)) : RunEffect :=
  match input with
  | none =>
    { errorMsg := true, usedChunkedPath := false, fetchesIssued := 0,
      finalFileWritten := false }
  | some (start_id, end_id) =>
    if (CHUNK_SIZE : Int) < end_id - start_id then
      { errorMsg := false, usedChunkedPath := true,
        fetchesIssued := idCount start_id end_id, finalFileWritten := true }
    else
      { errorMsg := false, usedChunkedPath := false,
        fetchesIssued := idCount start_id end_id, finalFileWritten := true }

/-- Counterexample to C2 as stated: for `start_id = 0`, `end_id = 100000`
the range length is `CHUNK_SIZE + 1`, yet the source's
`end_id - start_id > CHUNK_SIZE` test is false and the chunked path is
bypassed. -/
theorem main_bypass_counterexample :
    ¬ (((mainRun (some (0, 100000))).usedChunkedPath = false) ↔
        ((100000 : Int) - 0 + 1 ≤ (CHUNK_SIZE : Int))) := by
  decide

/-- Claim C2 (amended): the chunked Orchestrator-plus-Merger path is
bypassed iff the range length `end_id - start_id + 1` is at most
`CHUNK_SIZE + 1` (the source compares `end_id - start_id > CHUNK_SIZE`,
so the boundary sits one id higher than the claim states). -/
theorem main_bypass_iff (start_id end_id : Int) :
    (mainRun (some (start_id, end_id))).usedChunkedPath = false ↔
      end_id - start_id + 1 ≤ (CHUNK_SIZE : Int) + 1 := by
  rw [mainRun]
  split
  · rename_i hgt
    simp only
    constructor
    · intro h
      exact absurd h (by simp)
    · intro h
      exact absurd hgt (by omega)
  · rename_i hle
    simp only
    constructor
    · intro _
      omega
    · intro _
      trivial

/-- Counterexample to C3 as stated: for `start_id = 10 > end_id = 5` no
error is surfaced and the final output file is still written (an empty
leaderboard). -/
theorem main_inverted_range_counterexample :
    ¬ ((mainRun (some (10, 5))).errorMsg = true ∧
        (mainRun (some (10, 5))).finalFileWritten = false) := by
  decide

/-- Claim C3 (amended): for `start_id > end_id` the program does not surface
any error and issues no fetch (the id range is empty), but — contrary to the
claim — it still writes the final output file, containing an empty
leaderboard, via the single-crawl path. -/
theorem main_inverted_range (start_id end_id : Int) (h : end_id < start_id) :
    (mainRun (some (start_id, end_id))).errorMsg = false ∧
    (mainRun (some (start_id, end_id))).fetchesIssued = 0 ∧
    (mainRun (some (start_id, end_id))).finalFileWritten = true ∧
    (mainRun (some (start_id, end_id))).usedChunkedPath = false := by
  rw [mainRun]
  rw [if_neg (by simp only [CHUNK_SIZE]; omega)]
  refine ⟨rfl, ?_, rfl, rfl⟩
  simp only [idCount]
  omega

/-- Witness for C3 (amended) at `start_id = 10`, `end_id = 5`. -/
theorem main_inverted_range_witness :
    (mainRun (some (10, 5))).errorMsg = false ∧
    (mainRun (some (10, 5))).fetchesIssued = 0 ∧
    (mainRun (some (10, 5))).finalFileWritten = true ∧
    (mainRun (some (10, 5))).usedChunkedPath = false :=
  main_inverted_range 10 5 (by decide)

/-- Witness for C4 at `S = 1`, `E = 5`, `C = 2` (chunks `(1,2) (3,4) (5,5)`). -/
theorem run_chunks_partition_witness :
    (1 : Int) ≤ 5 ∧ 0 < 2 ∧
      (run_chunks 1 5 2).length = (((5 : Int) + 1 - 1).toNat + 2 - 1) / 2 :=
  ⟨by decide, by decide, (run_chunks_partition 1 5 2 (by decide) (by decide)).1⟩

/-! ### The admission semaphore

`fetch` wraps its whole body in `async with semaphore:`, so each invocation
acquires one slot before issuing the request and the slot is released when
the block exits on every path.  The interleaving of concurrent invocations
is modelled by a step relation where an `acquire` may only fire while fewer
than `semaphoreCapacity` slots are held — the semantics of
`asyncio.Semaphore(125)`. -/

/-- Semaphore-relevant events of a `fetch` invocation. -/
inductive SemEvent where
  | acquire : SemEvent
  | request : SemEvent
  | release : SemEvent
deriving DecidableEq, Repr

/-- The control paths through `fetch`'s body: a 200 response, a non-200
fall-through, and an exception raised by the request (all swallowed). -/
inductive FetchPath where
  | success : FetchPath
  | badStatus : FetchPath
  | raised : FetchPath
deriving DecidableEq, Repr

/-- The event trace of one `fetch` invocation.  The `async with semaphore:`
block acquires before the request is issued and releases on exit of the
block, on every path — return, fall-through and swallowed exception
alike. -/
def fetchEvents : FetchPath → List SemEvent
  | .success => [.acquire, .request, .release]
  | .badStatus => [.acquire, .request, .release]
  | .raised => [.acquire, .request, .release]

/-- Scheduler state: the remaining events of every scheduled task, and the
number of currently held slots. -/
structure SemState where
  pending : List (List SemEvent)
  inflight : Nat
deriving DecidableEq, Repr

/-- One interleaving step: some task performs its next event.  An `acquire`
fires only while a slot is free; a `release` frees one. -/
inductive SemStep : SemState → SemState → Prop where
  | acq (pre post : List (List SemEvent)) (rest : List SemEvent) (n : Nat) :
      n < semaphoreCapacity →
      SemStep ⟨pre ++ (SemEvent.acquire :: rest) :: post, n⟩
        ⟨pre ++ rest :: post, n + 1⟩
  | req (pre post : List (List SemEvent)) (rest : List SemEvent) (n : Nat) :
      SemStep ⟨pre ++ (SemEvent.request :: rest) :: post, n⟩
        ⟨pre ++ rest :: post, n⟩
  | rel (pre post : List (List SemEvent)) (rest : List SemEvent) (n : Nat) :
      SemStep ⟨pre ++ (SemEvent.release :: rest) :: post, n⟩
        ⟨pre ++ rest :: post, n - 1⟩

/-- Reachability under interleaving. -/
inductive SemReach : SemState → SemState → Prop where
  | refl (s : SemState) : SemReach s s
  | tail {s t u : SemState} : SemReach s t → SemStep t u → SemReach s u

/-- Initial state: the scheduled `fetch` invocations of a chunk, no slot
held. -/
def initState (paths : List FetchPath) : SemState :=
  ⟨paths.map fetchEvents, 0⟩

/-- The suffixes of a `fetch` trace a task can be left with. -/
def goodTrace (l : List SemEvent) : Prop :=
  l = [SemEvent.acquire, SemEvent.request, SemEvent.release] ∨
    l = [SemEvent.request, SemEvent.release] ∨
    l = [SemEvent.release] ∨ l = []

/-- A task holds a slot exactly when it has acquired but not yet
released. -/
def holds (l : List SemEvent) : Bool :=
  decide (SemEvent.release ∈ l ∧ ¬ SemEvent.acquire ∈ l)

/-- The inductive invariant: every task sits on a genuine trace suffix, the
inflight counter counts exactly the slot-holding tasks, and it never
exceeds the capacity. -/
def SemInv (s : SemState) : Prop :=
  (∀ l ∈ s.pending, goodTrace l) ∧
    s.inflight = s.pending.countP holds ∧
    s.inflight ≤ semaphoreCapacity

theorem semInv_init (paths : List FetchPath) : SemInv (initState paths) := by
  refine ⟨?_, ?_, by simp [initState, semaphoreCapacity]⟩
  · intro l hl
    obtain ⟨p, _, rfl⟩ := List.mem_map.mp hl
    cases p <;> simp [fetchEvents, goodTrace]
  · simp only [initState]
    rw [eq_comm, List.countP_eq_zero]
    intro l hl
    obtain ⟨p, _, rfl⟩ := List.mem_map.mp hl
    cases p <;> decide

theorem semInv_step {s t : SemState} (hinv : SemInv s) (hstep : SemStep s t) :
    SemInv t := by
  obtain ⟨htr, hcnt, hcap⟩ := hinv
  cases hstep with
  | acq pre post rest n hn =>
    have hmem : (SemEvent.acquire :: rest) ∈ pre ++ (SemEvent.acquire :: rest) :: post :=
      List.mem_append.mpr (Or.inr (List.mem_cons_self _ _))
    have hrest : rest = [SemEvent.request, SemEvent.release] := by
      rcases htr _ hmem with h | h | h | h <;> simp_all [goodTrace]
    subst hrest
    dsimp only at htr hcnt hcap
    refine ⟨?_, ?_, by dsimp only; omega⟩
    · intro l hl
      dsimp only at hl
      rcases List.mem_append.mp hl with h | h
      · exact htr l (List.mem_append.mpr (Or.inl h))
      · rcases List.mem_cons.mp h with rfl | h
        · right; left; rfl
        · exact htr l (List.mem_append.mpr (Or.inr (List.mem_cons_of_mem _ h)))
    · have h1 : holds [SemEvent.acquire, SemEvent.request, SemEvent.release] = false := by
        decide
      have h2 : holds [SemEvent.request, SemEvent.release] = true := by decide
      dsimp only
      simp [List.countP_append, List.countP_cons, h1, h2] at hcnt ⊢
      omega
  | req pre post rest n =>
    have hmem : (SemEvent.request :: rest) ∈ pre ++ (SemEvent.request :: rest) :: post :=
      List.mem_append.mpr (Or.inr (List.mem_cons_self _ _))
    have hrest : rest = [SemEvent.release] := by
      rcases htr _ hmem with h | h | h | h <;> simp_all [goodTrace]
    subst hrest
    dsimp only at htr hcnt hcap
    refine ⟨?_, ?_, by dsimp only; omega⟩
    · intro l hl
      dsimp only at hl
      rcases List.mem_append.mp hl with h | h
      · exact htr l (List.mem_append.mpr (Or.inl h))
      · rcases List.mem_cons.mp h with rfl | h
        · right; right; left; rfl
        · exact htr l (List.mem_append.mpr (Or.inr (List.mem_cons_of_mem _ h)))
    · have h1 : holds [SemEvent.request, SemEvent.release] = true := by decide
      have h2 : holds [SemEvent.release] = true := by decide
      dsimp only
      simp [List.countP_append, List.countP_cons, h1, h2] at hcnt ⊢
      omega
  | rel pre post rest n =>
    have hmem : (SemEvent.release :: rest) ∈ pre ++ (SemEvent.release :: rest) :: post :=
      List.mem_append.mpr (Or.inr (List.mem_cons_self _ _))
    have hrest : rest = [] := by
      rcases htr _ hmem with h | h | h | h <;> simp_all [goodTrace]
    subst hrest
    dsimp only at htr hcnt hcap
    refine ⟨?_, ?_, by dsimp only; omega⟩
    · intro l hl
      dsimp only at hl
      rcases List.mem_append.mp hl with h | h
      · exact htr l (List.mem_append.mpr (Or.inl h))
      · rcases List.mem_cons.mp h with rfl | h
        · right; right; right; rfl
        · exact htr l (List.mem_append.mpr (Or.inr (List.mem_cons_of_mem _ h)))
    · have h1 : holds [SemEvent.release] = true := by decide
      have h2 : holds ([] : List SemEvent) = false := by decide
      dsimp only
      simp [List.countP_append, List.countP_cons, h1, h2] at hcnt ⊢
      omega

theorem semInv_reach {s t : SemState} (hinv : SemInv s) (h : SemReach s t) :
    SemInv t := by
  induction h with
  | refl => exact hinv
  | tail _ hstep ih => exact semInv_step ih hstep

/-- Claim C9: every `fetch` invocation acquires one slot before issuing its
request and releases it on every exit path (its event trace is exactly
acquire–request–release); consequently, along every interleaving of the
scheduled invocations the number of held slots never exceeds the capacity
125, and when all invocations have finished no slot remains held — no slot
is leaked. -/
theorem semaphore_safety (paths : List FetchPath) (s : SemState)
    (h : SemReach (initState paths) s) :
    (∀ p : FetchPath, fetchEvents p =
      [SemEvent.acquire, SemEvent.request, SemEvent.release]) ∧
    s.inflight ≤ semaphoreCapacity ∧
    ((∀ l ∈ s.pending, l = []) → s.inflight = 0) := by
  have hinv := semInv_reach (semInv_init paths) h
  refine ⟨fun p => by cases p <;> rfl, hinv.2.2, fun hdone => ?_⟩
  rw [hinv.2.1, List.countP_eq_zero]
  intro l hl
  rw [hdone l hl]
  decide

/-- Witness for C9: after one task of a singleton chunk acquires its slot,
the bound holds. -/
theorem semaphore_safety_witness :
    (SemState.mk [[SemEvent.request, SemEvent.release]] 1).inflight ≤
      semaphoreCapacity :=
  (semaphore_safety [FetchPath.success] _
    (SemReach.tail (SemReach.refl (initState [FetchPath.success]))
      (SemStep.acq [] [] [SemEvent.request, SemEvent.release] 0
        (by decide)))).2.1

end TopScratch
